/-
Verification of a Substitution-Permutation-Network cipher and its
linear/differential cryptanalysis pipeline.

The definitions below are a shallow embedding of the Python sources:
  * `spn/spn.py`                : the cipher core (SPN class),
  * `cryptanalysis/framework.py`: FrameworkProvider,
  * `cryptanalysis/searcher.py` : CharacteristicSearcher (lookup table and
                                  the constraint system handed to the solver),
  * `cryptanalysis.py`          : Cryptanalysis (key recovery engine).

Machine integers are modelled as `Nat` (all values involved are 16-bit and
the Python code never overflows), probabilities and biases as `Rat`
(Python floats; every number appearing in the computations is an exact
dyadic value except the literal `0.000001`, modelled as `1/1000000`, whose
role is only to be a tiny nonzero sentinel).  Python operations that can
raise (`list` indexing out of range, division by zero, a failed `assert`)
are embedded as `Option`-returning functions.
-/
import Mathlib

set_option maxRecDepth 10000

/-! ## Cipher core: `spn/spn.py` -/

/-- The state of a constructed `SPN` object (`spn/spn.py`, `__init__`). -/
structure SPN where
  sbox : List Nat
  inv_sbox : List Nat
  pbox : List Nat
  inv_pbox : List Nat
  round_keys : List Nat
  rounds : Nat
deriving Repr, DecidableEq

/-- Inverse-table construction `inv[val] = i` for `i, val in enumerate(box)`, starting from `[0] * 16`.
A value `val ≥ 16` raises `IndexError` in Python, embedded as `none`. -/
def buildInverse (box : List Nat) : Option (List Nat) :=
  box.enum.foldlM
    (fun inv p => if p.2 < inv.length then some (inv.set p.2 p.1) else none)
    (List.replicate 16 0)

/-- Embeds `SPN.__init__`: stores the boxes and keys and derives the inverse
S-box and P-box.  Performs no validation beyond what Python itself
raises (an `IndexError` when a box value is out of range 0..15). -/
def mkSPN (sbox pbox round_keys : List Nat) (rounds : Nat) : Option SPN := do
  let inv_s ← buildInverse sbox
  let inv_p ← buildInverse pbox
  pure { sbox := sbox, inv_sbox := inv_s, pbox := pbox, inv_pbox := inv_p,
         round_keys := round_keys, rounds := rounds }

/-- Embeds `SPN._substitution`: substitutes each of the 4 nibbles via `sbox`. -/
def substitution (spn : SPN) (state : Nat) : Nat :=
  (List.range 4).foldl
    (fun output i =>
      output ||| ((spn.sbox.getD ((state >>> (i * 4)) &&& 0xF) 0) <<< (i * 4)))
    0

/-- Embeds `SPN._inv_substitution`: substitutes each nibble via `inv_sbox`. -/
def inv_substitution (spn : SPN) (state : Nat) : Nat :=
  (List.range 4).foldl
    (fun output i =>
      output ||| ((spn.inv_sbox.getD ((state >>> (i * 4)) &&& 0xF) 0) <<< (i * 4)))
    0

/-- Embeds `SPN._permutation`: moves the bit at position `i` to position `pbox[i]`. -/
def permutation (spn : SPN) (state : Nat) : Nat :=
  (List.range 16).foldl
    (fun permuted i =>
      permuted ||| (((state >>> i) &&& 1) <<< (spn.pbox.getD i 0)))
    0

/-- Embeds `SPN._inv_permutation`: moves the bit at position `i` to `inv_pbox[i]`.
(Defined by the source but never called by `decrypt`.) -/
def inv_permutation (spn : SPN) (state : Nat) : Nat :=
  (List.range 16).foldl
    (fun permuted i =>
      permuted ||| (((state >>> i) &&& 1) <<< (spn.inv_pbox.getD i 0)))
    0

/-- Embeds `SPN.encrypt`: for `i = 1..num_rounds` XOR `round_keys[i-1]`,
substitute, and permute unless `i = num_rounds`; finally XOR
`round_keys[num_rounds]`. -/
def encrypt (spn : SPN) (plaintext : Nat) (num_rounds : Nat) : Nat :=
  let state := (List.range' 1 num_rounds).foldl
    (fun state i =>
      let state := state ^^^ spn.round_keys.getD (i - 1) 0
      let state := substitution spn state
      if i ≠ num_rounds then permutation spn state else state)
    plaintext
  state ^^^ spn.round_keys.getD num_rounds 0

/-- Embeds `SPN.decrypt`, transcribed exactly as written: note that for the
non-final rounds it calls `self._permutation` — the FORWARD permutation —
not `self._inv_permutation`. -/
def decrypt (spn : SPN) (ciphertext : Nat) (num_rounds : Nat) : Nat :=
  let state := ciphertext ^^^ spn.round_keys.getD num_rounds 0
  ((List.range' 1 num_rounds).reverse).foldl
    (fun state i =>
      let state := if i ≠ num_rounds then permutation spn state else state
      let state := inv_substitution spn state
      state ^^^ spn.round_keys.getD (i - 1) 0)
    state

/-- A concrete 2-round configuration: identity S-box, the 3-cycle
P-box `0 ↦ 1 ↦ 2 ↦ 0` (a bijection on 0..15 that is not an involution),
all-zero round keys. -/
def cexSbox : List Nat := List.range 16

/-- The counterexample P-box: a non-involutive bijection. -/
def cexPbox : List Nat := [1, 2, 0, 3, 4, 5, 6, 7, 8, 9, 10, 11, 12, 13, 14, 15]

/-- The SPN built from the counterexample configuration. -/
def cexSPN : SPN :=
  { sbox := cexSbox
    inv_sbox := cexSbox
    pbox := cexPbox
    inv_pbox := [2, 0, 1, 3, 4, 5, 6, 7, 8, 9, 10, 11, 12, 13, 14, 15]
    round_keys := [0, 0, 0]
    rounds := 2 }

/-! ## Analysis variant -/

/-- The two analysis variants, the Python strings `linear` / `differential`. -/
inductive Variant where
  | linear
  | differential
deriving DecidableEq, Repr

/-! ## Table builder: `CharacteristicSearcher._compute_look_up_table` -/

/-- Python `bin(x).count("1")`: the number of ones in the binary expansion. -/
def popcount : Nat → Nat
  | 0 => 0
  | n + 1 => (n + 1) % 2 + popcount ((n + 1) / 2)

/-- One entry of the LAT (linear) or DDT (differential) lookup table:
a count over the 16 nibble inputs divided by 16, shifted by `-0.5` for
the linear case, with an exact zero replaced by the sentinel `0.000001`. -/
def lookUpEntry (variant : Variant) (sbox : List Nat) (alpha beta : Nat) : Rat :=
  let count := (List.range 16).countP (fun x =>
    match variant with
    | .linear => popcount (alpha &&& x) % 2 == popcount (beta &&& sbox.getD x 0) % 2
    | .differential => sbox.getD x 0 ^^^ sbox.getD (x ^^^ alpha) 0 == beta)
  let prob : Rat := (count : Rat) / 16
  match variant with
  | .linear => if prob - 1/2 ≠ 0 then prob - 1/2 else 1/1000000
  | .differential => if prob ≠ 0 then prob else 1/1000000

/-- Specification-side bit count: the sum of the base-2 digits. -/
def bitsum (n : Nat) : Nat := (Nat.digits 2 n).sum

/-- Specification-side linear table entry: parity-agreement card over
`Finset.range 16`, divided by 16, minus `1/2`, zero replaced by `1e-6`. -/
def linear_entry_spec (sbox : List Nat) (alpha beta : Nat) : Rat :=
  let bias : Rat :=
    (((Finset.range 16).filter
        (fun x => bitsum (alpha &&& x) % 2 = bitsum (beta &&& sbox.getD x 0) % 2)).card : Rat)
      / 16 - 1/2
  if bias = 0 then 1/1000000 else bias

/-- Specification-side differential table entry: the DDT count over
`Finset.range 16` divided by 16, zero replaced by `1e-6`. -/
def diff_entry_spec (sbox : List Nat) (alpha beta : Nat) : Rat :=
  let prob : Rat :=
    (((Finset.range 16).filter
        (fun x => sbox.getD x 0 ^^^ sbox.getD (x ^^^ alpha) 0 = beta)).card : Rat) / 16
  if prob = 0 then 1/1000000 else prob

/-! ## Attack framework: `FrameworkProvider` -/

/-- Embeds `FrameworkProvider.get_target_partial_subkey`: for each of the 4
last-round S-boxes whose nibble of `beta` is nonzero, collect all four
bit positions of that nibble. -/
def get_target_partial_subkey (beta : Nat) : Finset Nat :=
  (List.range 4).foldl
    (fun affected sbox_index =>
      if (beta >>> (sbox_index * 4)) &&& 0xF ≠ 0 then
        (List.range 4).foldl (fun s bit => insert (sbox_index * 4 + bit) s) affected
      else affected)
    ∅

/-- The state of a constructed `FrameworkProvider` (`cryptanalysis/framework.py`). -/
structure Framework where
  spn : SPN
  num_rounds_char : Nat
  variant : String
  max_active_sboxes : Option Nat
deriving Repr

/-- Embeds `FrameworkProvider.__init__`: stores its arguments and then runs
`assert variant in ('linear', 'differential')`; a failed assert aborts
construction, embedded as `none`.  No other validation is performed. -/
def mkFramework (spn : SPN) (num_rounds_char : Nat) (variant : String)
    (max_active_sboxes : Option Nat) : Option Framework :=
  if variant = "linear" ∨ variant = "differential" then
    some ⟨spn, num_rounds_char, variant, max_active_sboxes⟩
  else none

/-- The DDT count: number of `x` in 0..15 with `sbox[x] ^ sbox[x ^ alpha] = beta`
(the quantity the differential table divides by 16, before the sentinel). -/
def diff_count (sbox : List Nat) (alpha beta : Nat) : Nat :=
  (List.range 16).countP (fun x => sbox.getD x 0 ^^^ sbox.getD (x ^^^ alpha) 0 == beta)

/-- The S-box of the repository's deterministic example configuration. -/
def theSbox : List Nat :=
  [0xB, 0x1, 0xD, 0x7, 0xC, 0x9, 0x3, 0xF, 0x0, 0xA, 0x8, 0x6, 0x2, 0x5, 0x4, 0xE]

/-- The full non-final round of encryption: key mixing, substitution and
permutation, with the 0-based round-key index of the specification. -/
def full_round (spn : SPN) (s : Nat) (i : Nat) : Nat :=
  permutation spn (substitution spn (s ^^^ spn.round_keys.getD i 0))

/-! ## Cryptanalysis engine: `cryptanalysis.py` -/

/-- Embeds `Cryptanalysis._partially_decrypt`: undoes the final key mixing and
final-round substitution on every sample.  The linear variant keeps the
plaintexts and decrypts the ciphertexts; the differential variant
decrypts both ciphertexts of each pair. -/
def part_decrypt (variant : Variant) (spn : SPN) (samples : List (Nat × Nat))
    (key_guess : Nat) : List Nat × List Nat :=
  match variant with
  | .linear =>
      (samples.map (fun s => s.1),
       samples.map (fun s => inv_substitution spn (s.2 ^^^ key_guess)))
  | .differential =>
      (samples.map (fun s => inv_substitution spn (s.1 ^^^ key_guess)),
       samples.map (fun s => inv_substitution spn (s.2 ^^^ key_guess)))

/-- The per-candidate match count of `_find_key_bits`: parity agreements
for the linear variant, partially-decrypted pairs whose XOR equals `beta`
for the differential variant. -/
def match_count (variant : Variant) (spn : SPN) (alpha beta : Nat)
    (attack_samples : List (Nat × Nat)) (key_guess : Nat) : Nat :=
  match variant with
  | .linear =>
      (((part_decrypt .linear spn attack_samples key_guess).1).zip
        (part_decrypt .linear spn attack_samples key_guess).2).countP
        (fun pr => popcount (alpha &&& pr.1) % 2 == popcount (beta &&& pr.2) % 2)
  | .differential =>
      (((part_decrypt .differential spn attack_samples key_guess).1).zip
        (part_decrypt .differential spn attack_samples key_guess).2).countP
        (fun pr => pr.1 ^^^ pr.2 == beta)

/-- Python's `count / N`, raising `ZeroDivisionError` when `N = 0`. -/
def pyDiv (a N : Nat) : Option Rat :=
  if N = 0 then none else some ((a : Rat) / N)

/-- Python `list(get_target_partial_subkey(beta))`: the set listed in ascending
order (the iteration order of a CPython set of ints 0..15).  All members
are below 16, so filtering `0..15` by membership lists the whole set. -/
def active_bits (beta : Nat) : List Nat :=
  (List.range 16).filter (fun p => p ∈ get_target_partial_subkey beta)

/-- The key guess assembled from the guess counter: bit `i` of `guess`
drives the `i`-th active bit position. -/
def key_guess_of (active : List Nat) (guess : Nat) : Nat :=
  active.enum.foldl
    (fun key_guess p =>
      if (guess >>> p.1) &&& 1 ≠ 0 then key_guess ||| (1 <<< p.2) else key_guess)
    0

/-- Embeds `Cryptanalysis._find_key_bits`: enumerates all `2^|activeBits|` key
guesses, scores each empirically (running maxima `bias_max`/`prob_max`
both start at 0, a guess replaces the incumbent only on a strictly
greater score), and returns the winner's bit values on the active
positions together with the winning score.  Each iteration divides by
the sample count, so an empty sample list fails (`none`). -/
def find_key_bits (variant : Variant) (spn : SPN) (alpha beta : Nat)
    (attack_samples : List (Nat × Nat)) : Option (List (Nat × Nat) × Rat) := do
  let active := active_bits beta
  let st ← (List.range (1 <<< active.length)).foldlM
    (fun (st : Nat × Rat × Rat) guess => do
      let key_guess := key_guess_of active guess
      match variant with
      | .linear => do
          let q ← pyDiv (match_count .linear spn alpha beta attack_samples key_guess)
            attack_samples.length
          let bias_key := q - 1/2
          if bias_key > st.2.1 then pure (key_guess, bias_key, st.2.2) else pure st
      | .differential => do
          let q ← pyDiv (match_count .differential spn alpha beta attack_samples key_guess)
            attack_samples.length
          if q > st.2.2 then pure (key_guess, st.2.1, q) else pure st)
    (0, 0, 0)
  let recovered := active.map (fun bit_pos => (bit_pos, (st.1 >>> bit_pos) &&& 1))
  match variant with
  | .linear => pure (recovered, st.2.1)
  | .differential => pure (recovered, st.2.2)

/-- The empirical score of a key guess (meaningful for a nonempty sample
list): empirical bias for the linear variant, empirical probability for
the differential variant. -/
def empirical_score (variant : Variant) (spn : SPN) (alpha beta : Nat)
    (samples : List (Nat × Nat)) (key_guess : Nat) : Rat :=
  match variant with
  | .linear =>
      (match_count .linear spn alpha beta samples key_guess : Rat)
        / samples.length - 1/2
  | .differential =>
      (match_count .differential spn alpha beta samples key_guess : Rat)
        / samples.length

/-- The pure per-guess step of the `_find_key_bits` candidate loop (the
effectful loop body once the division is known to succeed). -/
def score_step (variant : Variant) (spn : SPN) (alpha beta : Nat)
    (samples : List (Nat × Nat)) (st : Nat × Rat × Rat) (guess : Nat) :
    Nat × Rat × Rat :=
  let key_guess := key_guess_of (active_bits beta) guess
  match variant with
  | .linear =>
      let bias_key := empirical_score .linear spn alpha beta samples key_guess
      if bias_key > st.2.1 then (key_guess, bias_key, st.2.2) else st
  | .differential =>
      let q := empirical_score .differential spn alpha beta samples key_guess
      if q > st.2.2 then (key_guess, st.2.1, q) else st

/-- The bare select-the-strict-maximum fold underlying the candidate loop:
state `(best, max)`, replaced only when the score strictly exceeds `max`. -/
def sel_fold (key : Nat → Nat) (f : Nat → Rat) (l : List Nat) (st : Nat × Rat) :
    Nat × Rat :=
  l.foldl (fun st g => if f g > st.2 then (key g, f g) else st) st

/-- The final state of the `_find_key_bits` candidate loop
`(best_key_guess, bias_max, prob_max)`, for a nonempty sample list. -/
def fkb_state (variant : Variant) (spn : SPN) (alpha beta : Nat)
    (samples : List (Nat × Nat)) : Nat × Rat × Rat :=
  (List.range (1 <<< (active_bits beta).length)).foldl
    (score_step variant spn alpha beta samples) (0, 0, 0)

/-- The score `_find_key_bits` reports: `bias_max` for the linear
variant, `prob_max` for the differential variant. -/
def fkb_score (variant : Variant) (spn : SPN) (alpha beta : Nat)
    (samples : List (Nat × Nat)) : Rat :=
  match variant with
  | .linear => (fkb_state .linear spn alpha beta samples).2.1
  | .differential => (fkb_state .differential spn alpha beta samples).2.2

/-- One dict update of the merge loop of `find_last_round_key`: write the
bit value if the position is new, overwrite only on a strictly higher
score (a tie keeps the existing entry). -/
def merge_update (rec_map : Nat → Option (Nat × Rat)) (pr : Nat × Nat)
    (bias_key : Rat) : Nat → Option (Nat × Rat) :=
  fun q =>
    if q = pr.1 then
      match rec_map pr.1 with
      | none => some (pr.2, bias_key)
      | some (v0, s0) =>
          if bias_key > s0 then some (pr.2, bias_key) else some (v0, s0)
    else rec_map q

/-- The merge loop of `find_last_round_key` for one characteristic's
recovered bits.  The dict is modelled as a function to `Option`. -/
def merge_bits (recovered : Nat → Option (Nat × Rat)) (bits : List (Nat × Nat))
    (bias_key : Rat) : Nat → Option (Nat × Rat) :=
  bits.foldl (fun rec_map pr => merge_update rec_map pr bias_key) recovered

/-- Assembling the final key from the merged bit values.  All recovered
positions are bit positions 0..15, so scanning 0..15 reproduces the
Python iteration over the dict entries (bitwise OR is order-independent). -/
def assemble_key (recovered : Nat → Option (Nat × Rat)) : Nat :=
  (List.range 16).foldl
    (fun final_key bit_pos =>
      match recovered bit_pos with
      | some pr =>
          if pr.1 ≠ 0 then final_key ||| (1 <<< bit_pos) else final_key
      | none => final_key)
    0

/-- Embeds `Cryptanalysis.find_last_round_key`, parameterized by the
characteristics the searcher produced and by the sampled text pairs
`gen alpha` (the Python code draws them at random; the claims below
depend only on their number). -/
def find_last_round_key (variant : Variant) (spn : SPN)
    (characteristics : List (Nat × Nat × Rat)) (gen : Nat → List (Nat × Nat)) :
    Option Nat := do
  let merged ← characteristics.foldlM
    (fun (recovered : Nat → Option (Nat × Rat)) ch => do
      let attack_samples := gen ch.1
      let res ← find_key_bits variant spn ch.1 ch.2.1 attack_samples
      pure (merge_bits recovered res.1 res.2))
    (fun _ => none)
  pure (assemble_key merged)

/-! ## Characteristic searcher: the constraint system of
`CharacteristicSearcher._add_constraints` / `add_mandatory_nibble` -/

/-- The z3 slice `Extract((i+1)*4-1, i*4, m)`: nibble `i` of a 16-bit mask. -/
def nib (m i : Nat) : Nat := (m >>> (i * 4)) &&& 0xF

/-- The z3 slice `Extract(i, i, m)`: bit `i` of a 16-bit mask. -/
def bit_of (m i : Nat) : Nat := (m >>> i) &&& 1

/-- A model of the solver variables: the 16-bit mask vectors `in_r` and
`out_r`, the per-round per-nibble score variables `prob_r_n`, the
activity booleans, and `total_bias`. -/
structure SolverModel where
  in_masks : Nat → Nat
  out_masks : Nat → Nat
  prob : Nat → Nat → Rat
  is_active : Nat → Nat → Bool
  total_bias : Rat

/-- The assertions the searcher hands to the solver: 16-bit domains,
zero-propagation through each S-box, the score disjunction over the 256
table entries, the activity definition, the bit-level permutation
linkage, the product objective, the optional cap on active S-boxes, the
nonzero first and last masks, and the mandatory output nibbles.  Any
model the solver returns satisfies all of these; `alpha` is read off as
`in_masks 0` and `beta` as `in_masks num_rounds`. -/
def constraints_hold (spn : SPN) (variant : Variant) (num_rounds : Nat)
    (max_active_sboxes : Option Nat) (mandatory : List Nat) (M : SolverModel) :
    Prop :=
  (∀ r < num_rounds + 1, M.in_masks r < 2 ^ 16 ∧ M.out_masks r < 2 ^ 16) ∧
  (∀ r < num_rounds, ∀ i < 4,
    (nib (M.in_masks r) i = 0 → nib (M.out_masks r) i = 0) ∧
    (∃ a < 16, ∃ b < 16, nib (M.in_masks r) i = a ∧ nib (M.out_masks r) i = b ∧
      M.prob r i = lookUpEntry variant spn.sbox a b) ∧
    (M.is_active r i = true ↔ nib (M.in_masks r) i ≠ 0)) ∧
  (∀ r < num_rounds, ∀ i < 16,
    bit_of (M.in_masks (r + 1)) (spn.pbox.getD i 0) = bit_of (M.out_masks r) i) ∧
  (M.total_bias = ∏ r ∈ Finset.range num_rounds, ∏ i ∈ Finset.range 4, M.prob r i) ∧
  (match max_active_sboxes with
   | some cap =>
       (∑ r ∈ Finset.range num_rounds, ∑ i ∈ Finset.range 4,
         if M.is_active r i then 1 else 0) ≤ cap
   | none => True) ∧
  M.in_masks 0 ≠ 0 ∧ M.in_masks num_rounds ≠ 0 ∧
  (∀ i ∈ mandatory, nib (M.in_masks num_rounds) i ≠ 0)

/-- A concrete satisfying model over `cexSPN` for one round of the
differential variant with nibble 0 mandatory: the single difference bit 0
activates S-box 0 (identity S-box, probability 1) and the P-box carries
it to bit 1. -/
def cexModel : SolverModel :=
  { in_masks := fun r => if r = 0 then 1 else 2
    out_masks := fun r => if r = 0 then 1 else 0
    prob := fun _ _ => 1
    is_active := fun _ i => decide (i = 0)
    total_bias := 1 }

/-- C1: the cipher round trip fails on the code as written.  `decrypt`
re-applies the forward P-box (`_permutation`) instead of the inverse
(`_inv_permutation`), so for the bijective but non-involutive P-box of
`cexSPN` the plaintext `1` encrypts to `2` but `2` decrypts to `4 ≠ 1`.
The constructor really produces `cexSPN` (with the correct `inv_pbox`,
which `decrypt` never consults). -/
theorem decrypt_encrypt_roundtrip_fails :
    mkSPN cexSbox cexPbox [0, 0, 0] 2 = some cexSPN ∧
    encrypt cexSPN 1 2 = 2 ∧
    decrypt cexSPN 2 2 = 4 ∧
    decrypt cexSPN (encrypt cexSPN 1 2) 2 ≠ 1 := by
  refine ⟨by decide, by decide, by decide, by decide⟩

/-- Membership in a fold that inserts `f b` for every `b` of a list. -/
theorem mem_foldl_insert (l : List Nat) (f : Nat → Nat) (s : Finset Nat) (p : Nat) :
    p ∈ l.foldl (fun s b => insert (f b) s) s ↔ p ∈ s ∨ ∃ b ∈ l, p = f b := by
  induction l generalizing s with
  | nil => simp
  | cons b l ih =>
    rw [List.foldl_cons, ih]
    simp only [Finset.mem_insert, List.mem_cons]
    constructor
    · rintro (⟨h | h⟩ | ⟨c, hc, rfl⟩)
      · exact Or.inr ⟨b, Or.inl rfl, h⟩
      · exact Or.inl h
      · exact Or.inr ⟨c, Or.inr hc, rfl⟩
    · rintro (h | ⟨c, (rfl | hc), rfl⟩)
      · exact Or.inl (Or.inr h)
      · exact Or.inl (Or.inl rfl)
      · exact Or.inr ⟨c, hc, rfl⟩

/-- Membership in the accumulating fold of `get_target_partial_subkey`. -/
theorem mem_target_fold (beta : Nat) (l : List Nat) (s : Finset Nat) (p : Nat) :
    p ∈ l.foldl
        (fun affected sbox_index =>
          if (beta >>> (sbox_index * 4)) &&& 0xF ≠ 0 then
            (List.range 4).foldl (fun s2 bit => insert (sbox_index * 4 + bit) s2) affected
          else affected)
        s
      ↔ p ∈ s ∨ ∃ j ∈ l, (beta >>> (j * 4)) &&& 0xF ≠ 0 ∧ ∃ bit < 4, p = j * 4 + bit := by
  induction l generalizing s with
  | nil => simp
  | cons j l ih =>
    rw [List.foldl_cons]
    by_cases h : (beta >>> (j * 4)) &&& 0xF ≠ 0
    · rw [if_pos h, ih, mem_foldl_insert]
      simp only [List.mem_range, List.mem_cons]
      constructor
      · rintro (⟨hs | ⟨b, hb, rfl⟩⟩ | ⟨c, hc, hcn, bit, hbit, rfl⟩)
        · exact Or.inl hs
        · exact Or.inr ⟨j, Or.inl rfl, h, b, hb, rfl⟩
        · exact Or.inr ⟨c, Or.inr hc, hcn, bit, hbit, rfl⟩
      · rintro (hs | ⟨c, (rfl | hc), hcn, bit, hbit, rfl⟩)
        · exact Or.inl (Or.inl hs)
        · exact Or.inl (Or.inr ⟨bit, hbit, rfl⟩)
        · exact Or.inr ⟨c, hc, hcn, bit, hbit, rfl⟩
    · rw [if_neg h, ih]
      simp only [List.mem_cons]
      constructor
      · rintro (hs | ⟨c, hc, hcn, w⟩)
        · exact Or.inl hs
        · exact Or.inr ⟨c, Or.inr hc, hcn, w⟩
      · rintro (hs | ⟨c, (rfl | hc), hcn, w⟩)
        · exact Or.inl hs
        · exact absurd hcn h
        · exact Or.inr ⟨c, hc, hcn, w⟩

/-- C4: `getTargetPartialSubkey(beta)` contains exactly the bit
positions `p < 16` lying in a nibble of `beta` that is nonzero: all four
bits of an active nibble are included (whether or not `beta` masks each
individual bit), and no bit of an inactive nibble is. -/
theorem target_partial_subkey_per_nibble (beta p : Nat) :
    p ∈ get_target_partial_subkey beta ↔
      p < 16 ∧ (beta >>> ((p / 4) * 4)) &&& 0xF ≠ 0 := by
  unfold get_target_partial_subkey
  rw [mem_target_fold]
  simp only [Finset.not_mem_empty, false_or, List.mem_range]
  constructor
  · rintro ⟨j, hj, hnz, bit, hbit, rfl⟩
    have hdiv : (j * 4 + bit) / 4 = j := by omega
    rw [hdiv]
    exact ⟨by omega, hnz⟩
  · rintro ⟨hp, hnz⟩
    exact ⟨p / 4, by omega, hnz, p % 4, by omega, by omega⟩

/-- The loop-style bit count agrees with the digit-sum formulation. -/
theorem popcount_eq_bitsum (n : Nat) : popcount n = bitsum n := by
  induction n using Nat.strong_induction_on with
  | _ n ih =>
    match n with
    | 0 => simp [popcount, bitsum]
    | n + 1 =>
      rw [popcount, bitsum, Nat.digits_add_two_add_one, List.sum_cons,
        ih ((n + 1) / 2) (by omega)]
      rfl

/-- Counting over `List.range` agrees with filtering `Finset.range`. -/
theorem countP_range_eq_card_filter (n : Nat) (p : Nat → Bool) :
    (List.range n).countP p = ((Finset.range n).filter (fun x => p x = true)).card := by
  induction n with
  | zero => rfl
  | succ n ih =>
    rw [List.range_succ, List.countP_append, Finset.range_succ, Finset.filter_insert]
    by_cases h : p n = true
    · rw [if_pos h, Finset.card_insert_of_not_mem (by simp), ← ih]
      simp [h, List.countP_cons]
    · rw [if_neg h, ← ih]
      simp [List.countP_cons, h]

/-- The source guards with `value != 0`, the spec text with `value == 0`;
the two phrasings of the sentinel replacement agree. -/
theorem ite_ne_zero_flip (x s : Rat) :
    (if x ≠ 0 then x else s) = (if x = 0 then s else x) := by
  by_cases h : x = 0 <;> simp [h]

/-- C5: for a bijective 4-bit S-box, the lookup table entry at
`(alpha, beta)` is the linear bias (parity-agreement count over the 16
inputs, divided by 16, minus `1/2`) resp. the differential probability
(count of inputs `x` with `sbox[x] ^ sbox[x ^ alpha] = beta`, divided by
16), an exact zero being replaced by the sentinel `1e-6` in both
variants. -/
theorem look_up_table_entries (sbox : List Nat)
    (hlen : sbox.length = 16) (hval : ∀ v ∈ sbox, v < 16) (hnodup : sbox.Nodup)
    (alpha beta : Nat) (ha : alpha < 16) (hb : beta < 16) :
    lookUpEntry .linear sbox alpha beta = linear_entry_spec sbox alpha beta ∧
    lookUpEntry .differential sbox alpha beta = diff_entry_spec sbox alpha beta := by
  constructor
  · show (if _ then _ else _) = _
    rw [linear_entry_spec]
    have hcount : ((List.range 16).countP (fun x =>
          popcount (alpha &&& x) % 2 == popcount (beta &&& sbox.getD x 0) % 2))
        = ((Finset.range 16).filter
            (fun x => bitsum (alpha &&& x) % 2 = bitsum (beta &&& sbox.getD x 0) % 2)).card := by
      rw [countP_range_eq_card_filter]
      congr 1
      apply Finset.filter_congr
      intro x _
      simp [popcount_eq_bitsum]
    rw [hcount, ite_ne_zero_flip]
  · show (if _ then _ else _) = _
    rw [diff_entry_spec]
    have hcount : ((List.range 16).countP (fun x =>
          sbox.getD x 0 ^^^ sbox.getD (x ^^^ alpha) 0 == beta))
        = ((Finset.range 16).filter
            (fun x => sbox.getD x 0 ^^^ sbox.getD (x ^^^ alpha) 0 = beta)).card := by
      rw [countP_range_eq_card_filter]
      congr 1
      apply Finset.filter_congr
      intro x _
      simp
    rw [hcount, ite_ne_zero_flip]

/-- Witness for C5 at the repository's example S-box and `(alpha, beta) = (1, 1)`. -/
theorem look_up_table_entries_witness :
    (theSbox.length = 16 ∧ theSbox.Nodup ∧ (1 : Nat) < 16) ∧
    (lookUpEntry .linear theSbox 1 1 = linear_entry_spec theSbox 1 1 ∧
     lookUpEntry .differential theSbox 1 1 = diff_entry_spec theSbox 1 1) :=
  ⟨⟨by decide, by decide, by decide⟩,
    look_up_table_entries theSbox (by decide) (by decide) (by decide) 1 1
      (by decide) (by decide)⟩

/-- A differential table entry, rephrased through the integer count:
the sentinel is used exactly when the count is zero. -/
theorem lookUpEntry_diff_eq (sbox : List Nat) (alpha beta : Nat) :
    lookUpEntry .differential sbox alpha beta =
      if diff_count sbox alpha beta = 0 then 1/1000000
      else (diff_count sbox alpha beta : Rat) / 16 := by
  show (if ((diff_count sbox alpha beta : Rat) / 16) ≠ 0 then
      ((diff_count sbox alpha beta : Rat) / 16) else 1/1000000) = _
  by_cases hc : diff_count sbox alpha beta = 0
  · rw [if_pos hc, if_neg (by rw [hc]; norm_num)]
  · rw [if_neg hc, if_pos (by positivity)]

/-- C6 counterexample: for the bijective identity S-box and `alpha = 1`,
the differential table entries (zero counts already replaced by the
sentinel `1e-6`) sum to `1 + 15e-6`, not `1`. -/
theorem ddt_table_row_sum_counterexample :
    cexSbox.Nodup ∧ cexSbox.length = 16 ∧ (∀ v ∈ cexSbox, v < 16) ∧
    (∑ beta ∈ Finset.range 16, lookUpEntry .differential cexSbox 1 beta)
        = 200003 / 200000 ∧
    (∑ beta ∈ Finset.range 16, lookUpEntry .differential cexSbox 1 beta) ≠ 1 := by
  have hdc : ∀ b < 16, diff_count cexSbox 1 b = if b = 1 then 16 else 0 := by decide
  have hsum : (∑ beta ∈ Finset.range 16, lookUpEntry .differential cexSbox 1 beta)
      = 200003 / 200000 := by
    simp only [Finset.sum_range_succ, Finset.sum_range_zero, lookUpEntry_diff_eq]
    rw [hdc 0 (by norm_num), hdc 1 (by norm_num), hdc 2 (by norm_num),
      hdc 3 (by norm_num), hdc 4 (by norm_num), hdc 5 (by norm_num),
      hdc 6 (by norm_num), hdc 7 (by norm_num), hdc 8 (by norm_num),
      hdc 9 (by norm_num), hdc 10 (by norm_num), hdc 11 (by norm_num),
      hdc 12 (by norm_num), hdc 13 (by norm_num), hdc 14 (by norm_num),
      hdc 15 (by norm_num)]
    norm_num
  exact ⟨by decide, by decide, by decide, hsum, by rw [hsum]; norm_num⟩

/-- C6 (amended): for an S-box on 0..15, every row of the differential
table sums to 1 *before* sentinel substitution: the probabilities
`count/16` over the 16 output differences add up to exactly 1. -/
theorem ddt_row_sum_pre_sentinel (sbox : List Nat) (hlen : sbox.length = 16)
    (hval : ∀ v ∈ sbox, v < 16) (alpha : Nat) (ha : alpha < 16) :
    ∑ beta ∈ Finset.range 16, ((diff_count sbox alpha beta : Rat) / 16) = 1 := by
  have hmem : ∀ x ∈ Finset.range 16,
      sbox.getD x 0 ^^^ sbox.getD (x ^^^ alpha) 0 ∈ Finset.range 16 := by
    intro x hx
    rw [Finset.mem_range] at hx ⊢
    have h4 : (16 : Nat) = 2 ^ 4 := by norm_num
    have hget : ∀ m : Nat, m < 16 → sbox.getD m 0 < 16 := by
      intro m hm
      have hm' : m < sbox.length := by omega
      rw [List.getD_eq_getElem?_getD, List.getElem?_eq_getElem hm']
      exact hval _ (List.getElem_mem hm')
    have hxa : x ^^^ alpha < 16 := by
      rw [h4] at hx ha ⊢
      exact Nat.xor_lt_two_pow hx ha
    rw [h4]
    exact Nat.xor_lt_two_pow (by rw [← h4]; exact hget x hx)
      (by rw [← h4]; exact hget _ hxa)
  have key : ∑ beta ∈ Finset.range 16, diff_count sbox alpha beta = 16 := by
    have heach : ∀ beta ∈ Finset.range 16, diff_count sbox alpha beta
        = ((Finset.range 16).filter
            (fun x => sbox.getD x 0 ^^^ sbox.getD (x ^^^ alpha) 0 = beta)).card := by
      intro beta _
      rw [diff_count, countP_range_eq_card_filter]
      congr 1
      apply Finset.filter_congr
      intro x _
      simp
    rw [Finset.sum_congr rfl heach,
      ← Finset.card_eq_sum_card_fiberwise hmem, Finset.card_range]
  have : ∑ beta ∈ Finset.range 16, ((diff_count sbox alpha beta : Rat) / 16)
      = ((∑ beta ∈ Finset.range 16, diff_count sbox alpha beta : Nat) : Rat) / 16 := by
    rw [← Finset.sum_div, Nat.cast_sum]
  rw [this, key]
  norm_num

/-- Witness for the amended C6 at the identity S-box and `alpha = 1`. -/
theorem ddt_row_sum_pre_sentinel_witness :
    cexSbox.length = 16 ∧
    ∑ beta ∈ Finset.range 16, ((diff_count cexSbox 1 beta : Rat) / 16) = 1 :=
  ⟨by decide, ddt_row_sum_pre_sentinel cexSbox (by decide) (by decide) 1 (by decide)⟩

/-- Bits of the OR-accumulating fold used by the bit-twiddling helpers. -/
theorem testBit_foldl_or (l : List Nat) (f : Nat → Nat) (a : Nat) (k : Nat) :
    ((l.foldl (fun acc i => acc ||| f i) a).testBit k)
      = (a.testBit k || l.any (fun i => (f i).testBit k)) := by
  induction l generalizing a with
  | nil => simp
  | cons i l ih =>
    rw [List.foldl_cons, ih]
    simp [Bool.or_assoc]

/-- A value below 16 has no set bit at position 4 or higher. -/
theorem testBit_of_lt_sixteen (v k : Nat) (hv : v < 16) (hk : 4 ≤ k) :
    v.testBit k = false := by
  apply Nat.testBit_lt_two_pow
  calc v < 16 := hv
    _ = 2 ^ 4 := by norm_num
    _ ≤ 2 ^ k := Nat.pow_le_pow_right (by norm_num) hk

/-- Bits of the substitution layer as a 4-term disjunction. -/
theorem substitution_testBit (spn : SPN) (s t : Nat) :
    (substitution spn s).testBit t
      = ((List.range 4).any fun i =>
          ((spn.sbox.getD ((s >>> (i * 4)) &&& 0xF) 0) <<< (i * 4)).testBit t) := by
  rw [substitution, testBit_foldl_or]
  simp

/-- In-range `getD` lookups of an in-range box stay below 16. -/
theorem getD_lt_sixteen (box : List Nat) (hval : ∀ v ∈ box, v < 16) (m : Nat) :
    box.getD m 0 < 16 := by
  by_cases hm : m < box.length
  · rw [List.getD_eq_getElem?_getD, List.getElem?_eq_getElem hm]
    exact hval _ (List.getElem_mem hm)
  · rw [List.getD_eq_getElem?_getD, List.getElem?_eq_none (by omega)]
    norm_num

/-- The substitution layer acts on nibble `j` exactly by an S-box lookup
of nibble `j` of the input. -/
theorem substitution_nibble (spn : SPN)
    (hval : ∀ v ∈ spn.sbox, v < 16) (s j : Nat) (hj : j < 4) :
    ((substitution spn s) >>> (j * 4)) &&& 0xF
      = spn.sbox.getD ((s >>> (j * 4)) &&& 0xF) 0 := by
  have hfalse : ∀ m u : Nat, 4 ≤ u → ((spn.sbox[m]?).getD 0).testBit u = false := by
    intro m u hu
    rw [← List.getD_eq_getElem?_getD]
    exact testBit_of_lt_sixteen _ u (getD_lt_sixteen _ hval m) hu
  apply Nat.eq_of_testBit_eq
  intro k
  rw [Nat.testBit_and, Nat.testBit_shiftRight, substitution_testBit]
  have h15 : ∀ u : Nat, (0xF : Nat).testBit u = decide (u < 4) := by
    intro u
    have h := Nat.testBit_two_pow_sub_one 4 u
    norm_num at h
    exact h
  rw [h15]
  by_cases hk : k < 4
  · rw [show (decide (k < 4)) = true by simp [hk], Bool.and_true,
      show (List.range 4) = [0, 1, 2, 3] from rfl]
    simp only [List.any_cons, List.any_nil, Nat.testBit_shiftLeft]
    interval_cases j <;> interval_cases k <;> simp [hfalse]
  · rw [show (decide (k < 4)) = false by simp [hk], Bool.and_false]
    exact (testBit_of_lt_sixteen _ k (getD_lt_sixteen _ hval _) (by omega)).symm

/-- Bits of the permutation layer as a 16-term disjunction. -/
theorem permutation_testBit (spn : SPN) (s t : Nat) :
    (permutation spn s).testBit t
      = ((List.range 16).any fun i =>
          (((s >>> i) &&& 1) <<< (spn.pbox.getD i 0)).testBit t) := by
  rw [permutation, testBit_foldl_or]
  simp

/-- One summand of the permutation: the single bit `x` of `s` shifted to
position `px` has bit `t` set iff `t = px` and bit `x` of `s` is set. -/
theorem single_bit_term (s x px t : Nat) :
    ((((s >>> x) &&& 1) <<< px).testBit t) = (decide (t = px) && s.testBit x) := by
  rw [Nat.testBit_shiftLeft, Nat.testBit_and, Nat.testBit_shiftRight]
  have h1 : (1 : Nat).testBit (t - px) = decide ((0 : Nat) = t - px) := by
    rw [show (1 : Nat) = 2 ^ 0 by norm_num, Nat.testBit_two_pow]
  rw [h1]
  by_cases h : t = px
  · subst h
    simp
  · by_cases h2 : t ≥ px
    · rw [show (decide ((0 : Nat) = t - px)) = false by simp; omega]
      simp [h]
    · rw [show (decide (t ≥ px)) = false by simp; omega]
      simp [h]

/-- The permutation layer moves bit `i` to position `pbox[i]` when the
P-box is a bijection on 0..15. -/
theorem permutation_bit (spn : SPN) (hlen : spn.pbox.length = 16)
    (hval : ∀ v ∈ spn.pbox, v < 16) (hnodup : spn.pbox.Nodup)
    (s i : Nat) (hi : i < 16) :
    (permutation spn s).testBit (spn.pbox.getD i 0) = s.testBit i := by
  have hgetD : ∀ x : Nat, (hx : x < 16) →
      spn.pbox.getD x 0 = spn.pbox.get ⟨x, by omega⟩ := by
    intro x hx
    rw [List.getD_eq_getElem?_getD,
      List.getElem?_eq_getElem (show x < spn.pbox.length by omega)]
    rfl
  rw [permutation_testBit]
  simp only [single_bit_term]
  rcases hb : s.testBit i with _ | _
  · rw [List.any_eq_false]
    intro x hx
    rw [List.mem_range] at hx
    by_cases hxi : x = i
    · subst hxi
      rw [hb, Bool.and_false]
      simp
    · have hne : spn.pbox.getD i 0 ≠ spn.pbox.getD x 0 := by
        rw [hgetD x hx, hgetD i hi]
        intro hcontra
        have := (hnodup.get_inj_iff).mp hcontra
        exact hxi (congrArg Fin.val this).symm
      rw [decide_eq_false hne, Bool.false_and]
      simp
  · rw [List.any_eq_true]
    refine ⟨i, List.mem_range.mpr hi, ?_⟩
    rw [hb]
    simp

/-- Folding the encryption loop body over rounds `1..m` with `m` below the
total round count performs `m` full rounds. -/
theorem encrypt_fold_full (spn : SPN) (N : Nat) :
    ∀ (m : Nat), m < N → ∀ (p : Nat),
    (List.range' 1 m).foldl
      (fun state i =>
        let state := state ^^^ spn.round_keys.getD (i - 1) 0
        let state := substitution spn state
        if i ≠ N then permutation spn state else state)
      p
    = (List.range m).foldl (full_round spn) p := by
  intro m
  induction m with
  | zero => intro _ p; rfl
  | succ m ih =>
    intro hm p
    rw [List.range'_concat, List.range_succ, List.foldl_append, List.foldl_append,
      ih (by omega) p]
    simp only [List.foldl_cons, List.foldl_nil]
    rw [if_pos (show 1 + 1 * m ≠ N by omega),
      show 1 + 1 * m - 1 = m by omega]
    rfl

/-- C7: encryption is, structurally, `numRounds - 1` full rounds
(XOR `roundKeys[i-1]`, S-box substitution, P-box permutation), a final
round without the permutation, and the closing XOR with
`roundKeys[numRounds]`; the substitution acts nibble-wise through `sbox`
and the permutation moves bit `i` to `pbox[i]`. -/
theorem encrypt_round_structure (spn : SPN) :
    (∀ (p n : Nat), 1 ≤ n →
      encrypt spn p n
        = substitution spn
            (((List.range (n - 1)).foldl (full_round spn) p)
              ^^^ spn.round_keys.getD (n - 1) 0)
          ^^^ spn.round_keys.getD n 0) ∧
    ((∀ v ∈ spn.sbox, v < 16) → ∀ (s j : Nat), j < 4 →
      ((substitution spn s) >>> (j * 4)) &&& 0xF
        = spn.sbox.getD ((s >>> (j * 4)) &&& 0xF) 0) ∧
    (spn.pbox.length = 16 → (∀ v ∈ spn.pbox, v < 16) → spn.pbox.Nodup →
      ∀ (s i : Nat), i < 16 →
      (permutation spn s).testBit (spn.pbox.getD i 0) = s.testBit i) := by
  refine ⟨?_, fun hval s j hj => substitution_nibble spn hval s j hj,
    fun hlen hval hnodup s i hi => permutation_bit spn hlen hval hnodup s i hi⟩
  intro p n hn
  rw [encrypt]
  have hsplit : List.range' 1 n = List.range' 1 (n - 1) ++ [n] := by
    have : n = (n - 1) + 1 := by omega
    rw [this, List.range'_concat]
    congr 2
    omega
  rw [hsplit, List.foldl_append, encrypt_fold_full spn n (n - 1) (by omega) p]
  show ((if n ≠ n then _ else substitution spn (_ ^^^ spn.round_keys.getD (n - 1) 0))
    ^^^ spn.round_keys.getD n 0) = _
  rw [if_neg (by omega)]

/-- Witness for C7 at the counterexample SPN, 2 rounds, plaintext 5. -/
theorem encrypt_round_structure_witness :
    ((1 : Nat) ≤ 2 ∧ cexSPN.pbox.Nodup) ∧
    (encrypt cexSPN 5 2
        = substitution cexSPN
            (((List.range 1).foldl (full_round cexSPN) 5)
              ^^^ cexSPN.round_keys.getD 1 0)
          ^^^ cexSPN.round_keys.getD 2 0 ∧
      ((substitution cexSPN 5) >>> (1 * 4)) &&& 0xF
        = cexSPN.sbox.getD ((5 >>> (1 * 4)) &&& 0xF) 0 ∧
      (permutation cexSPN 5).testBit (cexSPN.pbox.getD 0 0) = (5 : Nat).testBit 0) :=
  ⟨⟨by decide, by decide⟩,
    (encrypt_round_structure cexSPN).1 5 2 (by decide),
    (encrypt_round_structure cexSPN).2.1 (by decide) 5 1 (by decide),
    (encrypt_round_structure cexSPN).2.2 (by decide) (by decide) (by decide) 5 0
      (by decide)⟩

/-- The helper `buildInverse` succeeds whenever every box value is in range 0..15. -/
theorem buildInverse_isSome (box : List Nat) (h : ∀ v ∈ box, v < 16) :
    (buildInverse box).isSome = true := by
  have key : ∀ (l : List (Nat × Nat)) (inv : List Nat), inv.length = 16 →
      (∀ p ∈ l, p.2 < 16) →
      ((l.foldlM
        (fun inv p => if p.2 < inv.length then some (inv.set p.2 p.1) else none)
        inv : Option (List Nat))).isSome = true := by
    intro l
    induction l with
    | nil => intro inv _ _; rfl
    | cons p l ih =>
      intro inv hlen hp
      have hp2 : p.2 < inv.length := by
        rw [hlen]; exact hp p (List.mem_cons_self p l)
      rw [List.foldlM_cons, if_pos hp2]
      exact ih (inv.set p.2 p.1) (by rw [List.length_set, hlen])
        (fun q hq => hp q (List.mem_cons_of_mem p hq))
  refine key box.enum (List.replicate 16 0) (by simp) ?_
  intro p hp
  have := List.mem_enum_iff_getElem?.mp hp
  exact h p.2 (List.getElem?_mem this)

/-- C8 counterexample: constructing the SPN with an all-zero (hence
non-bijective) S-box and P-box and an empty round-key list for 4 rounds
succeeds: `SPN.__init__` performs no bijectivity or key-count check. -/
theorem spn_construction_no_validation :
    (mkSPN (List.replicate 16 0) (List.replicate 16 0) [] 4).isSome = true ∧
    ¬ (List.replicate 16 (0 : Nat)).Nodup ∧
    ([] : List Nat).length ≠ 4 + 1 := by
  refine ⟨by decide, by decide, by decide⟩

/-- C8 (amended): only the variant is validated at construction time.
`SPN.__init__` accepts any boxes whose entries are in range (bijective or
not) and any number of round keys, while `FrameworkProvider.__init__`
fails exactly when the variant is neither `linear` nor `differential`. -/
theorem construction_time_checks (sbox pbox round_keys : List Nat) (rounds : Nat)
    (hs : ∀ v ∈ sbox, v < 16) (hp : ∀ v ∈ pbox, v < 16)
    (spn : SPN) (n : Nat) (variant : String) (m : Option Nat) :
    (mkSPN sbox pbox round_keys rounds).isSome = true ∧
    ((mkFramework spn n variant m).isSome = true ↔
      (variant = "linear" ∨ variant = "differential")) := by
  constructor
  · rw [mkSPN]
    have h1 := buildInverse_isSome sbox hs
    have h2 := buildInverse_isSome pbox hp
    rcases Option.isSome_iff_exists.mp h1 with ⟨inv_s, hi1⟩
    rcases Option.isSome_iff_exists.mp h2 with ⟨inv_p, hi2⟩
    rw [hi1, hi2]
    rfl
  · rw [mkFramework]
    by_cases hv : variant = "linear" ∨ variant = "differential"
    · rw [if_pos hv]; simpa using hv
    · rw [if_neg hv]; simpa using hv

/-- Witness for the amended C8 at the counterexample configuration. -/
theorem construction_time_checks_witness :
    (∀ v ∈ cexSbox, v < 16) ∧
    ((mkSPN cexSbox cexPbox [0, 0, 0] 2).isSome = true ∧
     ((mkFramework cexSPN 3 "linear" none).isSome = true ↔
       (("linear" : String) = "linear" ∨ ("linear" : String) = "differential"))) :=
  ⟨by decide,
    construction_time_checks cexSbox cexPbox [0, 0, 0] 2 (by decide) (by decide)
      cexSPN 3 "linear" none⟩

/-- The concrete model `cexModel` satisfies every constraint the searcher
asserts for one round of the differential variant over `cexSPN` with
nibble 0 mandatory and no active-S-box cap. -/
theorem cexModel_holds :
    constraints_hold cexSPN .differential 1 none [0] cexModel := by
  refine ⟨?_, ?_, ?_, ?_, trivial, ?_, ?_, ?_⟩
  · decide
  · intro r hr i hi
    interval_cases r
    interval_cases i
    · refine ⟨by decide, ⟨1, by norm_num, 1, by norm_num, by decide, by decide, ?_⟩,
        by decide⟩
      show (1 : Rat) = lookUpEntry .differential cexSPN.sbox 1 1
      rw [lookUpEntry_diff_eq, show diff_count cexSPN.sbox 1 1 = 16 from rfl]
      norm_num
    · refine ⟨by decide, ⟨0, by norm_num, 0, by norm_num, by decide, by decide, ?_⟩,
        by decide⟩
      show (1 : Rat) = lookUpEntry .differential cexSPN.sbox 0 0
      rw [lookUpEntry_diff_eq, show diff_count cexSPN.sbox 0 0 = 16 from rfl]
      norm_num
    · refine ⟨by decide, ⟨0, by norm_num, 0, by norm_num, by decide, by decide, ?_⟩,
        by decide⟩
      show (1 : Rat) = lookUpEntry .differential cexSPN.sbox 0 0
      rw [lookUpEntry_diff_eq, show diff_count cexSPN.sbox 0 0 = 16 from rfl]
      norm_num
    · refine ⟨by decide, ⟨0, by norm_num, 0, by norm_num, by decide, by decide, ?_⟩,
        by decide⟩
      show (1 : Rat) = lookUpEntry .differential cexSPN.sbox 0 0
      rw [lookUpEntry_diff_eq, show diff_count cexSPN.sbox 0 0 = 16 from rfl]
      norm_num
  · decide
  · simp [cexModel]
  · decide
  · decide
  · decide

/-- C9: any model satisfying the searcher's constraint system — hence
any model the solver returns, from which `search_best_characteristic`
reads `alpha = in_masks[0]` and `beta = in_masks[num_rounds]` — has
`alpha ≠ 0`, `beta ≠ 0`, and a nonzero 4-bit slice of `beta` at every
nibble marked mandatory via `add_mandatory_nibble`. -/
theorem characteristic_endpoints (spn : SPN) (variant : Variant)
    (num_rounds : Nat) (max_active_sboxes : Option Nat) (mandatory : List Nat)
    (M : SolverModel)
    (h : constraints_hold spn variant num_rounds max_active_sboxes mandatory M)
    (i : Nat) (hi : i ∈ mandatory) :
    M.in_masks 0 ≠ 0 ∧ M.in_masks num_rounds ≠ 0 ∧
    nib (M.in_masks num_rounds) i ≠ 0 :=
  ⟨h.2.2.2.2.2.1, h.2.2.2.2.2.2.1, h.2.2.2.2.2.2.2 i hi⟩

/-- Witness for C9 at the concrete one-round differential model. -/
theorem characteristic_endpoints_witness :
    (0 : Nat) ∈ [0] ∧
    (cexModel.in_masks 0 ≠ 0 ∧ cexModel.in_masks 1 ≠ 0 ∧
      nib (cexModel.in_masks 1) 0 ≠ 0) :=
  ⟨by decide,
    characteristic_endpoints cexSPN .differential 1 none [0] cexModel
      cexModel_holds 0 (by decide)⟩

/-- With an empty sample list the very first candidate iteration of
`_find_key_bits` divides by zero, so the whole call fails. -/
theorem find_key_bits_nil (variant : Variant) (spn : SPN) (alpha beta : Nat) :
    find_key_bits variant spn alpha beta [] = none := by
  obtain ⟨m, hm⟩ : ∃ m, 1 <<< (active_bits beta).length = m + 1 :=
    ⟨1 <<< (active_bits beta).length - 1, by
      have : 0 < 1 <<< (active_bits beta).length := by
        rw [Nat.one_shiftLeft]
        exact Nat.pos_pow_of_pos _ (by norm_num)
      omega⟩
  rw [find_key_bits, hm, List.range_succ_eq_map, List.foldlM_cons]
  cases variant <;> simp [pyDiv]

/-- C10: `find_last_round_key(0)` fails with a division-by-zero error for
any nonempty characteristic list: each characteristic's sample list has
`numAttackSamples = 0` entries and `_find_key_bits` divides the match
count by the sample count without a guard. -/
theorem find_last_round_key_zero_samples (variant : Variant) (spn : SPN)
    (characteristics : List (Nat × Nat × Rat)) (gen : Nat → List (Nat × Nat))
    (hchars : characteristics ≠ [])
    (hgen : ∀ alpha, gen alpha = []) :
    find_last_round_key variant spn characteristics gen = none := by
  match characteristics with
  | [] => exact absurd rfl hchars
  | c :: rest =>
    rw [find_last_round_key, List.foldlM_cons, hgen c.1]
    simp [find_key_bits_nil]

/-- Witness for C10 at a concrete configuration: one characteristic and
the empty sample generator. -/
theorem find_last_round_key_zero_samples_witness :
    ([((1 : Nat), (1 : Nat), (0 : Rat))] ≠ ([] : List (Nat × Nat × Rat))) ∧
    find_last_round_key .linear cexSPN [(1, 1, 0)] (fun _ => []) = none :=
  ⟨List.cons_ne_nil _ _,
    find_last_round_key_zero_samples .linear cexSPN [(1, 1, 0)] (fun _ => [])
      (List.cons_ne_nil _ _) (fun _ => rfl)⟩

/-- Bit `p` of `1 <<< q` is set exactly when `p = q`. -/
theorem testBit_one_shiftLeft (q p : Nat) :
    ((1 : Nat) <<< q).testBit p = decide (p = q) := by
  rw [Nat.testBit_shiftLeft]
  have h1 : ∀ u : Nat, (1 : Nat).testBit u = decide ((0 : Nat) = u) := by
    intro u
    rw [show (1 : Nat) = 2 ^ 0 from by norm_num, Nat.testBit_two_pow]
  rw [h1]
  by_cases h : p = q
  · subst h
    simp
  · by_cases h2 : p ≥ q
    · rw [show (decide ((0 : Nat) = p - q)) = false from by simp; omega]
      simp [h]
    · rw [show (decide (p ≥ q)) = false from by simp; omega]
      simp [h]

/-- Peeling one entry off the merge loop. -/
theorem merge_bits_cons (rec_map : Nat → Option (Nat × Rat)) (q : Nat × Nat)
    (bits : List (Nat × Nat)) (s : Rat) :
    merge_bits rec_map (q :: bits) s = merge_bits (merge_update rec_map q s) bits s :=
  rfl

/-- The fold `merge_bits` leaves positions it never writes untouched. -/
theorem merge_bits_not_mem (bits : List (Nat × Nat)) (s : Rat) :
    ∀ (rec_map : Nat → Option (Nat × Rat)) (p : Nat), p ∉ bits.map Prod.fst →
    merge_bits rec_map bits s p = rec_map p := by
  induction bits with
  | nil => intro rec_map p _; rfl
  | cons q bits ih =>
    intro rec_map p hp
    rw [List.map_cons, List.mem_cons] at hp
    push_neg at hp
    rw [merge_bits_cons, ih _ p hp.2]
    simp [merge_update, hp.1]

/-- The value `merge_bits` stores at a position one characteristic
recovers: a fresh write if the position was absent, an overwrite exactly
on a strictly greater score otherwise. -/
theorem merge_bits_mem (bits : List (Nat × Nat)) (s : Rat) :
    ∀ (rec_map : Nat → Option (Nat × Rat)) (p v : Nat),
    (bits.map Prod.fst).Nodup → (p, v) ∈ bits →
    merge_bits rec_map bits s p
      = some (match rec_map p with
              | none => (v, s)
              | some (v0, s0) => if s > s0 then (v, s) else (v0, s0)) := by
  induction bits with
  | nil => intro _ _ _ _ h; exact absurd h (List.not_mem_nil _)
  | cons q bits ih =>
    intro rec_map p v hnd hmem
    rw [List.map_cons] at hnd
    have hnd1 := List.nodup_cons.mp hnd
    rcases List.mem_cons.mp hmem with heq | htail
    · subst heq
      rw [merge_bits_cons, merge_bits_not_mem _ _ _ p hnd1.1]
      cases hrec : rec_map p with
      | none => simp [merge_update, hrec]
      | some pr =>
        obtain ⟨v0, s0⟩ := pr
        by_cases hgt : s > s0
        · simp [merge_update, hrec, hgt]
        · simp [merge_update, hrec, hgt]
    · have hpq : p ≠ q.1 := by
        intro hcontra
        apply hnd1.1
        rw [← hcontra]
        exact List.mem_map_of_mem Prod.fst htail
      rw [merge_bits_cons, ih _ p v hnd1.2 htail,
        show merge_update rec_map q s p = rec_map p from by simp [merge_update, hpq]]

/-- The fold `assemble_key` leaves bit `p` clear when the merged map has no entry
at `p`. -/
theorem assemble_key_bit_none (recovered : Nat → Option (Nat × Rat)) (p : Nat)
    (h : recovered p = none) : (assemble_key recovered).testBit p = false := by
  have key : ∀ (l : List Nat) (acc : Nat), acc.testBit p = false →
      ((l.foldl
        (fun final_key bit_pos =>
          match recovered bit_pos with
          | some pr =>
              if pr.1 ≠ 0 then final_key ||| (1 <<< bit_pos) else final_key
          | none => final_key) acc).testBit p) = false := by
    intro l
    induction l with
    | nil => intro acc hacc; exact hacc
    | cons q l ih =>
      intro acc hacc
      rw [List.foldl_cons]
      apply ih
      by_cases hqp : q = p
      · subst hqp
        rw [h]
        exact hacc
      · cases hq : recovered q with
        | none => exact hacc
        | some pr =>
          by_cases hv : pr.1 ≠ 0
          · show ((if pr.1 ≠ 0 then acc ||| 1 <<< q else acc)).testBit p = false
            rw [if_pos hv, Nat.testBit_or, hacc, testBit_one_shiftLeft,
              show (decide (p = q)) = false from by simp [Ne.symm hqp]]
            rfl
          · show ((if pr.1 ≠ 0 then acc ||| 1 <<< q else acc)).testBit p = false
            rw [if_neg hv]
            exact hacc
  exact key (List.range 16) 0 (Nat.zero_testBit p)

/-- No characteristic writing a position leaves the whole merged map
without an entry there. -/
theorem merged_fold_not_mem (results : List (List (Nat × Nat) × Rat)) (p : Nat) :
    ∀ (rec_map : Nat → Option (Nat × Rat)), (∀ r ∈ results, p ∉ r.1.map Prod.fst) →
    (results.foldl (fun rec_map r => merge_bits rec_map r.1 r.2) rec_map) p
      = rec_map p := by
  induction results with
  | nil => intro rec_map _; rfl
  | cons r results ih =>
    intro rec_map h
    rw [List.foldl_cons, ih _ (fun q hq => h q (List.mem_cons_of_mem r hq)),
      merge_bits_not_mem _ _ _ p (h r (List.mem_cons_self r results))]

/-- C3: when two characteristics recover the same bit position, the value
kept is the one with the strictly higher quality score (on an exact tie
the first-written value survives), and a bit position no characteristic
recovers is 0 in the assembled key. -/
theorem key_merge_policy :
    (∀ (bits1 bits2 : List (Nat × Nat)) (s1 s2 : Rat) (p v1 v2 : Nat),
      (p, v1) ∈ bits1 → (p, v2) ∈ bits2 →
      (bits1.map Prod.fst).Nodup → (bits2.map Prod.fst).Nodup →
      merge_bits (merge_bits (fun _ => none) bits1 s1) bits2 s2 p
        = some (if s2 > s1 then (v2, s2) else (v1, s1))) ∧
    (∀ (results : List (List (Nat × Nat) × Rat)) (p : Nat),
      (∀ r ∈ results, p ∉ r.1.map Prod.fst) →
      (assemble_key
        (results.foldl (fun rec_map r => merge_bits rec_map r.1 r.2)
          (fun _ => none))).testBit p = false) := by
  constructor
  · intro bits1 bits2 s1 s2 p v1 v2 h1 h2 hn1 hn2
    rw [merge_bits_mem bits2 s2 _ p v2 hn2 h2, merge_bits_mem bits1 s1 _ p v1 hn1 h1]
  · intro results p h
    exact assemble_key_bit_none _ p (merged_fold_not_mem results p (fun _ => none) h)

/-- Witness for C3: positions 3 recovered twice with equal scores keep
the first value; position 5, never recovered, assembles to 0. -/
theorem key_merge_policy_witness :
    ((((3 : Nat), (1 : Nat)) ∈ [((3 : Nat), (1 : Nat))]) ∧
      ([((3 : Nat), (1 : Nat))].map Prod.fst).Nodup) ∧
    merge_bits (merge_bits (fun _ => none) [(3, 1)] (1/4)) [(3, 0)] (1/4) 3
      = some (if (1/4 : Rat) > 1/4 then ((0 : Nat), (1/4 : Rat)) else (1, 1/4)) ∧
    (assemble_key
      ([([((3 : Nat), (1 : Nat))], (1/4 : Rat))].foldl
        (fun rec_map r => merge_bits rec_map r.1 r.2) (fun _ => none))).testBit 5
      = false :=
  ⟨⟨by simp, by decide⟩,
   key_merge_policy.1 [(3, 1)] [(3, 0)] (1/4) (1/4) 3 1 0 (by simp) (by simp)
     (by decide) (by decide),
   key_merge_policy.2 [([(3, 1)], 1/4)] 5 (by
     intro r hr
     rw [List.mem_singleton] at hr
     subst hr
     decide)⟩

/-- Peeling one candidate off the strict-maximum fold. -/
theorem sel_fold_cons (key : Nat → Nat) (f : Nat → Rat) (g : Nat) (l : List Nat)
    (b : Nat) (m : Rat) :
    sel_fold key f (g :: l) (b, m)
      = sel_fold key f l (if f g > m then (key g, f g) else (b, m)) :=
  rfl

/-- A candidate whose score never strictly exceeds the running maximum is
never selected: the fold state survives unchanged. -/
theorem sel_fold_no_improvement (key : Nat → Nat) (f : Nat → Rat) :
    ∀ (l : List Nat) (b : Nat) (m : Rat), (∀ g ∈ l, f g ≤ m) →
    sel_fold key f l (b, m) = (b, m) := by
  intro l
  induction l with
  | nil => intro b m _; rfl
  | cons g l ih =>
    intro b m h
    rw [sel_fold_cons,
      if_neg (by simpa using h g (List.mem_cons_self g l))]
    exact ih b m (fun x hx => h x (List.mem_cons_of_mem g hx))

/-- The first candidate that strictly beats everything before it and is
not strictly beaten by anything after it wins the fold. -/
theorem sel_fold_first_max (key : Nat → Nat) (f : Nat → Rat) :
    ∀ (l1 : List Nat) (g : Nat) (l2 : List Nat) (b : Nat) (m : Rat),
    f g > m → (∀ x ∈ l1, f x < f g) → (∀ x ∈ l2, f x ≤ f g) →
    sel_fold key f (l1 ++ g :: l2) (b, m) = (key g, f g) := by
  intro l1
  induction l1 with
  | nil =>
    intro g l2 b m hg _ hl2
    rw [List.nil_append, sel_fold_cons, if_pos hg]
    exact sel_fold_no_improvement key f l2 (key g) (f g) hl2
  | cons a l1 ih =>
    intro g l2 b m hg hl1 hl2
    rw [List.cons_append, sel_fold_cons]
    by_cases ha : f a > m
    · rw [if_pos ha]
      exact ih g l2 (key a) (f a) (hl1 a (List.mem_cons_self a l1))
        (fun x hx => hl1 x (List.mem_cons_of_mem a hx)) hl2
    · rw [if_neg ha]
      exact ih g l2 b m hg (fun x hx => hl1 x (List.mem_cons_of_mem a hx)) hl2

/-- The linear candidate loop is the strict-maximum fold on
`(best_key_guess, bias_max)` with `prob_max` carried along unchanged. -/
theorem fold_score_step_linear (spn : SPN) (alpha beta : Nat)
    (samples : List (Nat × Nat)) :
    ∀ (l : List Nat) (b : Nat) (bm pm : Rat),
    l.foldl (score_step .linear spn alpha beta samples) (b, bm, pm)
      = ((sel_fold (key_guess_of (active_bits beta))
            (fun g => empirical_score .linear spn alpha beta samples
              (key_guess_of (active_bits beta) g)) l (b, bm)).1,
         (sel_fold (key_guess_of (active_bits beta))
            (fun g => empirical_score .linear spn alpha beta samples
              (key_guess_of (active_bits beta) g)) l (b, bm)).2,
         pm) := by
  intro l
  induction l with
  | nil => intro b bm pm; rfl
  | cons g l ih =>
    intro b bm pm
    rw [List.foldl_cons, sel_fold_cons]
    by_cases h : empirical_score .linear spn alpha beta samples
        (key_guess_of (active_bits beta) g) > bm
    · rw [if_pos h,
        show score_step .linear spn alpha beta samples (b, bm, pm) g
          = (key_guess_of (active_bits beta) g,
             empirical_score .linear spn alpha beta samples
               (key_guess_of (active_bits beta) g), pm) from by
          simp [score_step, h]]
      exact ih _ _ pm
    · rw [if_neg h,
        show score_step .linear spn alpha beta samples (b, bm, pm) g
          = (b, bm, pm) from by simp [score_step, h]]
      exact ih b bm pm

/-- The differential candidate loop is the strict-maximum fold on
`(best_key_guess, prob_max)` with `bias_max` carried along unchanged. -/
theorem fold_score_step_differential (spn : SPN) (alpha beta : Nat)
    (samples : List (Nat × Nat)) :
    ∀ (l : List Nat) (b : Nat) (bm pm : Rat),
    l.foldl (score_step .differential spn alpha beta samples) (b, bm, pm)
      = ((sel_fold (key_guess_of (active_bits beta))
            (fun g => empirical_score .differential spn alpha beta samples
              (key_guess_of (active_bits beta) g)) l (b, pm)).1,
         bm,
         (sel_fold (key_guess_of (active_bits beta))
            (fun g => empirical_score .differential spn alpha beta samples
              (key_guess_of (active_bits beta) g)) l (b, pm)).2) := by
  intro l
  induction l with
  | nil => intro b bm pm; rfl
  | cons g l ih =>
    intro b bm pm
    rw [List.foldl_cons, sel_fold_cons]
    by_cases h : empirical_score .differential spn alpha beta samples
        (key_guess_of (active_bits beta) g) > pm
    · rw [if_pos h,
        show score_step .differential spn alpha beta samples (b, bm, pm) g
          = (key_guess_of (active_bits beta) g, bm,
             empirical_score .differential spn alpha beta samples
               (key_guess_of (active_bits beta) g)) from by
          simp [score_step, h]]
      exact ih _ bm _
    · rw [if_neg h,
        show score_step .differential spn alpha beta samples (b, bm, pm) g
          = (b, bm, pm) from by simp [score_step, h]]
      exact ih b bm pm

/-- An effectful fold whose steps always succeed is the pure fold. -/
theorem foldlM_eq_foldl {σ : Type} (f : σ → Nat → Option σ) (g : σ → Nat → σ)
    (hfg : ∀ st x, f st x = some (g st x)) :
    ∀ (l : List Nat) (st : σ), l.foldlM f st = some (l.foldl g st) := by
  intro l
  induction l with
  | nil => intro st; rfl
  | cons x l ih =>
    intro st
    rw [List.foldlM_cons, hfg]
    exact ih (g st x)

/-- Evaluating `_find_key_bits` on a nonempty sample list: the candidate loop runs
to completion (every division succeeds) and returns the recovered bits of
the final `best_key_guess` with the final running maximum. -/
theorem find_key_bits_eq (variant : Variant) (spn : SPN) (alpha beta : Nat)
    (samples : List (Nat × Nat)) (hs : samples ≠ []) :
    find_key_bits variant spn alpha beta samples
      = some ((active_bits beta).map (fun bit_pos =>
            (bit_pos,
             ((fkb_state variant spn alpha beta samples).1 >>> bit_pos) &&& 1)),
          fkb_score variant spn alpha beta samples) := by
  have hlen : samples.length ≠ 0 := fun hc => hs (List.length_eq_zero.mp hc)
  have hstep : ∀ (st : Nat × Rat × Rat) (guess : Nat),
      (do
        let key_guess := key_guess_of (active_bits beta) guess
        match variant with
        | .linear => do
            let q ← pyDiv (match_count .linear spn alpha beta samples key_guess)
              samples.length
            let bias_key := q - 1/2
            if bias_key > st.2.1 then pure (key_guess, bias_key, st.2.2)
            else pure st
        | .differential => do
            let q ← pyDiv (match_count .differential spn alpha beta samples key_guess)
              samples.length
            if q > st.2.2 then pure (key_guess, st.2.1, q) else pure st
        : Option (Nat × Rat × Rat))
        = some (score_step variant spn alpha beta samples st guess) := by
    intro st guess
    cases variant with
    | linear =>
      show (do
          let q ← pyDiv (match_count .linear spn alpha beta samples
            (key_guess_of (active_bits beta) guess)) samples.length
          let bias_key := q - 1/2
          if bias_key > st.2.1 then
            pure (key_guess_of (active_bits beta) guess, bias_key, st.2.2)
          else pure st
          : Option (Nat × Rat × Rat))
        = some (score_step .linear spn alpha beta samples st guess)
      rw [show pyDiv (match_count .linear spn alpha beta samples
            (key_guess_of (active_bits beta) guess)) samples.length
          = some ((match_count .linear spn alpha beta samples
              (key_guess_of (active_bits beta) guess) : Rat) / samples.length)
          from by rw [pyDiv, if_neg hlen]]
      simp only [score_step, empirical_score]
      exact (apply_ite some _ _ _).symm
    | differential =>
      show (do
          let q ← pyDiv (match_count .differential spn alpha beta samples
            (key_guess_of (active_bits beta) guess)) samples.length
          if q > st.2.2 then
            pure (key_guess_of (active_bits beta) guess, st.2.1, q)
          else pure st
          : Option (Nat × Rat × Rat))
        = some (score_step .differential spn alpha beta samples st guess)
      rw [show pyDiv (match_count .differential spn alpha beta samples
            (key_guess_of (active_bits beta) guess)) samples.length
          = some ((match_count .differential spn alpha beta samples
              (key_guess_of (active_bits beta) guess) : Rat) / samples.length)
          from by rw [pyDiv, if_neg hlen]]
      simp only [score_step, empirical_score]
      exact (apply_ite some _ _ _).symm
  rw [find_key_bits, foldlM_eq_foldl _ (score_step variant spn alpha beta samples)
    hstep]
  cases variant <;> rfl

/-- Splitting the enumeration `0..n-1` at an inner point `g`. -/
theorem range_split_at (n g : Nat) (h : g < n) :
    List.range n = List.range g ++ g :: List.range' (g + 1) (n - g - 1) := by
  obtain ⟨k, hk⟩ : ∃ k, n - g = k + 1 := ⟨n - g - 1, by omega⟩
  have happ := List.range'_append_1 0 g (n - g)
  rw [show (0 : Nat) + g = g from by omega,
    show (n - g) + g = n from by omega] at happ
  rw [List.range_eq_range', ← happ, hk, List.range'_succ, Nat.add_sub_cancel,
    ← List.range_eq_range']

/-- C2: the `_find_key_bits` selection policy.  First conjunct: when no
candidate's empirical score exceeds the zero-initialized running maximum,
the call still succeeds and returns the all-zero assignment on the active
bits with quality score 0.  Second conjunct: the winning candidate is the
first one (in enumeration order) attaining the maximum, and it must beat
0 and every earlier candidate strictly — equal-scoring later candidates
never displace it. -/
theorem find_key_bits_selection (variant : Variant) (spn : SPN)
    (alpha beta : Nat) (samples : List (Nat × Nat)) (hs : samples ≠ []) :
    ((∀ g, g < 1 <<< (active_bits beta).length →
        empirical_score variant spn alpha beta samples
          (key_guess_of (active_bits beta) g) ≤ 0) →
      find_key_bits variant spn alpha beta samples
        = some ((active_bits beta).map (fun bit_pos => (bit_pos, 0)), 0)) ∧
    (∀ g, g < 1 <<< (active_bits beta).length →
      0 < empirical_score variant spn alpha beta samples
            (key_guess_of (active_bits beta) g) →
      (∀ x, x < g →
        empirical_score variant spn alpha beta samples
            (key_guess_of (active_bits beta) x)
          < empirical_score variant spn alpha beta samples
              (key_guess_of (active_bits beta) g)) →
      (∀ x, g < x → x < 1 <<< (active_bits beta).length →
        empirical_score variant spn alpha beta samples
            (key_guess_of (active_bits beta) x)
          ≤ empirical_score variant spn alpha beta samples
              (key_guess_of (active_bits beta) g)) →
      find_key_bits variant spn alpha beta samples
        = some ((active_bits beta).map (fun bit_pos =>
            (bit_pos, (key_guess_of (active_bits beta) g >>> bit_pos) &&& 1)),
          empirical_score variant spn alpha beta samples
            (key_guess_of (active_bits beta) g))) := by
  constructor
  · intro h
    rw [find_key_bits_eq variant spn alpha beta samples hs]
    have hsel : fkb_state variant spn alpha beta samples = (0, 0, 0) := by
      cases variant with
      | linear =>
        rw [fkb_state, fold_score_step_linear,
          sel_fold_no_improvement _ _ _ 0 0
            (fun x hx => h x (List.mem_range.mp hx))]
      | differential =>
        rw [fkb_state, fold_score_step_differential,
          sel_fold_no_improvement _ _ _ 0 0
            (fun x hx => h x (List.mem_range.mp hx))]
    have hsc : fkb_score variant spn alpha beta samples = 0 := by
      cases variant with
      | linear => rw [fkb_score, hsel]
      | differential => rw [fkb_score, hsel]
    rw [hsel, hsc]
    simp
  · intro g hg hpos hbefore hafter
    rw [find_key_bits_eq variant spn alpha beta samples hs]
    have hsplit := range_split_at (1 <<< (active_bits beta).length) g hg
    have hsel : ∀ (key : Nat → Nat),
        sel_fold key
          (fun x => empirical_score variant spn alpha beta samples
            (key_guess_of (active_bits beta) x))
          (List.range (1 <<< (active_bits beta).length)) (0, 0)
        = (key g, empirical_score variant spn alpha beta samples
            (key_guess_of (active_bits beta) g)) := by
      intro key
      rw [hsplit]
      refine sel_fold_first_max key _ (List.range g) g _ 0 0 hpos
        (fun x hx => hbefore x (List.mem_range.mp hx)) (fun x hx => ?_)
      obtain ⟨i, hik, hxi⟩ := List.mem_range'.mp hx
      exact hafter x (by omega) (by omega)
    cases variant with
    | linear =>
      rw [show fkb_state .linear spn alpha beta samples
          = (key_guess_of (active_bits beta) g,
             empirical_score .linear spn alpha beta samples
               (key_guess_of (active_bits beta) g), 0) from by
        rw [fkb_state, fold_score_step_linear, hsel]]
      rw [show fkb_score .linear spn alpha beta samples
          = empirical_score .linear spn alpha beta samples
              (key_guess_of (active_bits beta) g) from by
        rw [fkb_score, fkb_state, fold_score_step_linear, hsel]]
    | differential =>
      rw [show fkb_state .differential spn alpha beta samples
          = (key_guess_of (active_bits beta) g, 0,
             empirical_score .differential spn alpha beta samples
               (key_guess_of (active_bits beta) g)) from by
        rw [fkb_state, fold_score_step_differential, hsel]]
      rw [show fkb_score .differential spn alpha beta samples
          = empirical_score .differential spn alpha beta samples
              (key_guess_of (active_bits beta) g) from by
        rw [fkb_score, fkb_state, fold_score_step_differential, hsel]]

/-- Witness for C2 over `cexSPN`, differential variant, `beta = 1`:
with the sample pair `(0,0)` no guess scores above 0 and the all-zero
assignment with score 0 is returned; with the sample pair `(0,1)` every
guess scores 1, so the first guess (0) wins. -/
theorem find_key_bits_selection_witness :
    (([((0 : Nat), (0 : Nat))] : List (Nat × Nat)) ≠ []) ∧
    find_key_bits .differential cexSPN 0 1 [(0, 0)]
      = some ((active_bits 1).map (fun bit_pos => (bit_pos, 0)), 0) ∧
    find_key_bits .differential cexSPN 0 1 [(0, 1)]
      = some ((active_bits 1).map (fun bit_pos =>
          (bit_pos, (key_guess_of (active_bits 1) 0 >>> bit_pos) &&& 1)),
        empirical_score .differential cexSPN 0 1 [(0, 1)]
          (key_guess_of (active_bits 1) 0)) := by
  have hd1 : ∀ g, g < 16 →
      match_count .differential cexSPN 0 1 [(0, 0)]
        (key_guess_of (active_bits 1) g) = 0 := by
    decide
  have hd2 : ∀ g, g < 16 →
      match_count .differential cexSPN 0 1 [(0, 1)]
        (key_guess_of (active_bits 1) g) = 1 := by
    decide
  have hb : (1 <<< (active_bits 1).length) = 16 := by decide
  refine ⟨by decide, ?_, ?_⟩
  · refine (find_key_bits_selection .differential cexSPN 0 1 [(0, 0)]
      (by decide)).1 ?_
    intro g hg
    rw [hb] at hg
    simp only [empirical_score]
    rw [hd1 g hg]
    norm_num
  · refine (find_key_bits_selection .differential cexSPN 0 1 [(0, 1)]
      (by decide)).2 0 ?_ ?_ ?_ ?_
    · rw [hb]
      norm_num
    · simp only [empirical_score]
      rw [hd2 0 (by norm_num)]
      norm_num
    · intro x hx
      exact absurd hx (Nat.not_lt_zero x)
    · intro x hx0 hx
      rw [hb] at hx
      simp only [empirical_score]
      rw [hd2 x hx, hd2 0 (by norm_num)]
